import Mathlib

/-!
Verification of the keyword ranking / dedup / cross-reference pipeline of the
keyword-report repository (`src/keyword_report/keywords.py`), checked against
its natural-language specification.

Strings are modelled as `List Char` (ASCII-faithful shallow embedding of
Python `str`).  Python's string primitives that the pipeline uses —
`str.lower`, `str.replace`, `str.split()`, `str.strip()`, `", ".join`,
substring tests (`in`), and the three fixed regular expressions of
`_normalize_service_intent` / `_detect_location` — are implemented below as
executable functions with the same behaviour on the ASCII inputs the
pipeline handles (Python's Unicode-only extras, and `$` matching before a
final newline, are out of modelled scope).  Python `sorted` / `list.sort`
are stable sorts; a stable sort's output is uniquely determined by the `le`
relation, so an insertion sort is an exact model.

Whenever a definition corresponds to a Python function it keeps the
source's name (underscores dropped where Lean requires).
-/

/-- Python `str` modelled as a list of characters. -/
abbrev Str : Type := List Char

/-- Convenience: build a `Str` from a Lean string literal. -/
def str (s : String) : Str := s.data

/-- ASCII case-folding of a single character, as Python `str.lower` acts on
ASCII: `A`–`Z` maps to `a`–`z`, everything else is fixed. -/
def lowerChar (c : Char) : Char :=
  if 65 ≤ c.toNat ∧ c.toNat ≤ 90 then Char.ofNat (c.toNat + 32) else c

/-- Python `s.lower()` (ASCII fragment). -/
def pyLower (s : Str) : Str := s.map lowerChar

/-- Python `pat in s` / `s.find(pat) >= 0`: `pat` occurs as a contiguous
substring of `s`. -/
def isSubstr (pat s : Str) : Bool :=
  match s with
  | [] => pat.isPrefixOf ([] : Str)
  | _ :: t => pat.isPrefixOf s || isSubstr pat t

/-- Worker for `pyReplace`: replaces non-overlapping occurrences of `pat`
left to right, scanning resuming after each replaced occurrence.  The
`Nat` argument is structural-recursion fuel; each step consumes at least
one character, so fuel `s.length` makes the function total and fully
faithful (the fuel-0 fallback is never reached from `pyReplace`). -/
def replaceFuel (pat repl : Str) : Nat → Str → Str
  | _, [] => []
  | 0, s => s
  | n + 1, c :: t =>
    if pat ≠ [] ∧ pat.isPrefixOf (c :: t) then
      repl ++ replaceFuel pat repl n ((c :: t).drop pat.length)
    else c :: replaceFuel pat repl n t

/-- Python `s.replace(pat, repl)`: non-overlapping left-to-right
replacement.  (Python's `s.replace("", r)` would intersperse `r`; the
pipeline only replaces nonempty city names, and here an empty pattern is
a no-op.) -/
def pyReplace (s pat repl : Str) : Str := replaceFuel pat repl s.length s

/-- Worker for `pySplit`, with structural-recursion fuel; each step
consumes at least one character, so fuel `s.length` suffices. -/
def pySplitFuel : Nat → Str → List Str
  | _, [] => []
  | 0, _ => []
  | n + 1, c :: t =>
    if c.isWhitespace then pySplitFuel n t
    else (c :: t.takeWhile (fun d => !d.isWhitespace)) ::
      pySplitFuel n (t.dropWhile (fun d => !d.isWhitespace))

/-- Python `s.split()` : maximal runs of non-whitespace characters, in
order, empties dropped. -/
def pySplit (s : Str) : List Str := pySplitFuel s.length s

/-- Python `" ".join(ws)`. -/
def joinSpace : List Str → Str
  | [] => []
  | [w] => w
  | w :: ws => w ++ ' ' :: joinSpace ws

/-- Python `s.strip()` : drop whitespace from both ends. -/
def pyStrip (s : Str) : Str :=
  ((s.dropWhile Char.isWhitespace).reverse.dropWhile Char.isWhitespace).reverse

/-- Byte-wise (code-point) comparison of strings, as Python `<=` on `str`
restricted to what `sorted` needs. -/
def leStr : Str → Str → Bool
  | [], _ => true
  | _ :: _, [] => false
  | a :: as, b :: bs =>
    if a.toNat < b.toNat then true
    else if b.toNat < a.toNat then false
    else leStr as bs

/-- Stable insertion of `x` into `l`: placed before the first element `y`
with `le x y`. -/
def insLe (le : α → α → Bool) (x : α) : List α → List α
  | [] => [x]
  | y :: ys => if le x y then x :: y :: ys else y :: insLe le x ys

/-- Stable insertion sort; models Python's (stable) `sorted` / `list.sort`
for a total `le`. -/
def sortLe (le : α → α → Bool) : List α → List α
  | [] => []
  | x :: xs => insLe le x (sortLe le xs)

/-- A character counted as a word character by the regexes' `\b` (ASCII
fragment of Python `\w`): letters, digits, underscore. -/
def isWordChar (c : Char) : Bool := c.isAlphanum || c = '_'

/-- Is `c` an ASCII lowercase letter (regex `[a-z]`)? -/
def isLowerAZ (c : Char) : Bool := 97 ≤ c.toNat && c.toNat ≤ 122

/-- Is `c` an ASCII uppercase letter (regex `[A-Z]`)? -/
def isUpperAZ (c : Char) : Bool := 65 ≤ c.toNat && c.toNat ≤ 90

/-- Does `s` end in exactly a two-lowercase-letter word, i.e. does
`\b[a-z]{2}\b$` match?  The two final characters must be `[a-z]` and the
character before them (if any) must not be a word character. -/
def endsTwoLetterWord (s : Str) : Bool :=
  match s.reverse with
  | c2 :: c1 :: t =>
    isLowerAZ c1 && isLowerAZ c2 &&
      (match t with | [] => true | d :: _ => !isWordChar d)
  | _ => false

/-- `re.sub(r"\b[a-z]{2}\b$", "", s)` : if `s` ends in exactly a
two-lowercase-letter word (preceded by a non-word character or the start
of the string), drop those two characters. -/
def subTrailingTwo (s : Str) : Str :=
  if endsTwoLetterWord s then s.take (s.length - 2) else s

/-- One pass of `re.sub(r"\bw\b", "", s)` for a fixed nonempty word `w` of
word characters: every occurrence of `w` flanked by word boundaries is
removed, scanning left to right, resuming after each match (the boundary
context for later matches comes from the original string, as `re.sub`
does).  `prevWord` records whether the character before the current
position is a word character. -/
def subWordFuel (w : Str) : Nat → Bool → Str → Str
  | _, _, [] => []
  | 0, _, s => s
  | n + 1, prevWord, c :: t =>
    if !prevWord && w.isPrefixOf (c :: t) &&
        (match (c :: t).drop w.length with
         | [] => true
         | d :: _ => !isWordChar d) then
      subWordFuel w n true (t.drop (w.length - 1))
    else c :: subWordFuel w n (isWordChar c) t

/-- `re.sub(r"\bw\b", "", s)` with word-boundary semantics; the start of
the string is a boundary.  The fuel `s.length` suffices since each step
consumes at least one character. -/
def subWord (w : Str) (s : Str) : Str := subWordFuel w s.length false s

/-! ## Data model and fixed vocabularies (`keywords.py`, `models.py`) -/

/-- `KeywordData` (`keywords.py`). -/
structure KeywordData where
  keyword : Str
  monthly_searches : Int
deriving DecidableEq, Repr

/-- `RankedKeywordData` (`keywords.py`). -/
structure RankedKeywordData where
  keyword : Str
  search_volume : Int
  rank_position : Int
  serp_type : Str
deriving DecidableEq, Repr

/-- One row of `check_ranking_for_keywords`'s output dicts
`{"keyword": ..., "monthly_searches": ..., "on_old_site": ...}`. -/
structure CheckResult where
  keyword : Str
  monthly_searches : Int
  on_old_site : Bool
deriving DecidableEq, Repr

/-- `BusinessProfile` (`models.py`), the fields the keyword pipeline can
see.  `business_model` drives the derived `is_local` flag. -/
structure BusinessProfile where
  business_name : Str
  industry : Str
  industry_plural : Str
  business_model : Str
  location : Str
  services : List Str := []
  service_area_cities : List Str := []
  seed_keywords : List Str := []
  relevance_terms : List Str := []
  brand_blocklist : List Str := []
deriving DecidableEq, Repr

/-- `LOCAL_MODELS` (`models.py`). -/
def LOCAL_MODELS : List Str :=
  [str "local_service", str "local_storefront", str "professional_service"]

/-- `BusinessProfile.is_local` (`models.py`). -/
def BusinessProfile.is_local (p : BusinessProfile) : Bool :=
  LOCAL_MODELS.contains p.business_model

/-- `BRAND_BLOCKLIST` (`keywords.py`). -/
def BRAND_BLOCKLIST : List Str :=
  [str "benjamin moore", str "sherwin williams", str "sherwin-williams",
   str "behr", str "valspar", str "ppg", str "dulux", str "farrow",
   str "rust-oleum", str "rustoleum", str "home depot", str "lowes",
   str "lowe\x27s", str "menards", str "ace hardware", str "angi",
   str "angie", str "thumbtack", str "yelp", str "houzz", str "nextdoor",
   str "trane", str "carrier", str "lennox", str "goodman", str "rheem",
   str "daikin", str "kohler", str "moen", str "delta faucet",
   str "scotts", str "trugreen", str "john deere", str "orkin",
   str "terminix", str "rentokil"]

/-- `INDUSTRY_SEEDS` (`keywords.py`): insertion-ordered dict, modelled as
an association list. -/
def INDUSTRY_SEEDS : List (Str × List Str) :=
  [ (str "plumbing",
     [str "plumber", str "plumbing services", str "drain cleaning",
      str "water heater repair", str "leak repair", str "emergency plumber",
      str "pipe repair", str "sewer repair", str "toilet repair"]),
    (str "hvac",
     [str "hvac repair", str "air conditioning repair", str "ac repair",
      str "furnace repair", str "heating repair", str "ac installation",
      str "hvac company", str "heat pump installation", str "duct cleaning"]),
    (str "roofing",
     [str "roofing contractor", str "roof repair", str "roofer",
      str "roof replacement", str "roof inspection", str "roof leak repair",
      str "shingle repair", str "metal roofing", str "emergency roof repair"]),
    (str "electrical",
     [str "electrician", str "electrical contractor", str "electrical repair",
      str "outlet installation", str "lighting installation",
      str "panel upgrade", str "emergency electrician", str "wiring repair"]),
    (str "painting",
     [str "painter", str "house painter", str "painting contractor",
      str "interior painting", str "exterior painting", str "house painting",
      str "residential painter", str "commercial painter",
      str "cabinet painting", str "deck staining"]),
    (str "landscaping",
     [str "landscaping company", str "landscaper", str "lawn care service",
      str "tree trimming", str "tree removal", str "landscape design",
      str "lawn mowing service", str "irrigation installation"]),
    (str "cleaning",
     [str "house cleaning service", str "cleaning service", str "maid service",
      str "deep cleaning", str "office cleaning", str "commercial cleaning",
      str "carpet cleaning", str "move out cleaning"]),
    (str "pest_control",
     [str "pest control", str "exterminator", str "termite treatment",
      str "bed bug treatment", str "rodent control", str "ant exterminator",
      str "mosquito control", str "wildlife removal"]) ]

/-! ## Seed generation and location resolution (`keywords.py`) -/

/-- `_extract_city`: `location.split(",")[0].strip()`. -/
def extract_city (location : Str) : Str :=
  pyStrip (location.takeWhile (fun c => c ≠ ','))

/-- `generate_seed_keywords` (`keywords.py` lines 119–172). -/
def generate_seed_keywords (industry location : Str)
    (services service_area_cities : List Str) : List Str :=
  let primary_city := extract_city location
  let industry_lower := pyLower industry
  let industry_key := pyReplace industry_lower (str " ") (str "_")
  let cities := service_area_cities.foldl
    (fun acc c =>
      if pyLower c ≠ pyLower primary_city ∧ c ∉ acc then acc ++ [c] else acc)
    [primary_city]
  let service_terms₀ := [industry_lower]
  let service_terms₁ :=
    match INDUSTRY_SEEDS.find? (fun e => e.1 = industry_key) with
    | some e => service_terms₀ ++ e.2
    | none => service_terms₀
  let service_terms := services.foldl
    (fun acc svc =>
      if pyLower svc ∉ acc.map pyLower then acc ++ [svc] else acc)
    service_terms₁
  let keywords := (service_terms.enum.map
    (fun ti => ti.2 ++ ' ' :: cities.getD (ti.1 % cities.length) []))
  let primary_seed := industry_lower ++ ' ' :: primary_city
  let keywords₂ :=
    if pyLower primary_seed ∉ keywords.map pyLower then
      primary_seed :: keywords
    else keywords
  let unique := (keywords₂.foldl
    (fun (acc : List Str × List Str) kw =>
      if pyLower kw ∈ acc.1 then acc
      else (acc.1 ++ [pyLower kw], acc.2 ++ [kw]))
    ([], [])).2
  unique.take 20

/-- The `intl_mappings` dict of `_detect_location`, in insertion order. -/
def intl_mappings : List (Str × Str) :=
  [ (str "australia", str "Australia"), (str "sydney", str "Australia"),
    (str "melbourne", str "Australia"), (str "brisbane", str "Australia"),
    (str "perth", str "Australia"), (str "adelaide", str "Australia"),
    (str "uk", str "United Kingdom"),
    (str "united kingdom", str "United Kingdom"),
    (str "london", str "United Kingdom"), (str "england", str "United Kingdom"),
    (str "canada", str "Canada"), (str "toronto", str "Canada"),
    (str "vancouver", str "Canada"),
    (str "new zealand", str "New Zealand"), (str "auckland", str "New Zealand") ]

/-- The `us_states` dict of `_detect_location`. -/
def us_states : List (Str × Str) :=
  [ (str "AL", str "Alabama"), (str "AK", str "Alaska"),
    (str "AZ", str "Arizona"), (str "AR", str "Arkansas"),
    (str "CA", str "California"), (str "CO", str "Colorado"),
    (str "CT", str "Connecticut"), (str "DE", str "Delaware"),
    (str "FL", str "Florida"), (str "GA", str "Georgia"),
    (str "HI", str "Hawaii"), (str "ID", str "Idaho"),
    (str "IL", str "Illinois"), (str "IN", str "Indiana"),
    (str "IA", str "Iowa"), (str "KS", str "Kansas"),
    (str "KY", str "Kentucky"), (str "LA", str "Louisiana"),
    (str "ME", str "Maine"), (str "MD", str "Maryland"),
    (str "MA", str "Massachusetts"), (str "MI", str "Michigan"),
    (str "MN", str "Minnesota"), (str "MS", str "Mississippi"),
    (str "MO", str "Missouri"), (str "MT", str "Montana"),
    (str "NE", str "Nebraska"), (str "NV", str "Nevada"),
    (str "NH", str "New Hampshire"), (str "NJ", str "New Jersey"),
    (str "NM", str "New Mexico"), (str "NY", str "New York"),
    (str "NC", str "North Carolina"), (str "ND", str "North Dakota"),
    (str "OH", str "Ohio"), (str "OK", str "Oklahoma"),
    (str "OR", str "Oregon"), (str "PA", str "Pennsylvania"),
    (str "RI", str "Rhode Island"), (str "SC", str "South Carolina"),
    (str "SD", str "South Dakota"), (str "TN", str "Tennessee"),
    (str "TX", str "Texas"), (str "UT", str "Utah"),
    (str "VT", str "Vermont"), (str "VA", str "Virginia"),
    (str "WA", str "Washington"), (str "WV", str "West Virginia"),
    (str "WI", str "Wisconsin"), (str "WY", str "Wyoming") ]

/-- `re.search(r",\s*([A-Z]{2})\b", location)`: leftmost match of a comma,
optional whitespace, then a two-uppercase-letter group followed by a word
boundary; returns the captured two letters. -/
def findStateAbbrev : Str → Option (Char × Char)
  | [] => none
  | c :: t =>
    if c = ',' then
      match h : t.dropWhile Char.isWhitespace with
      | a :: b :: rest =>
        if isUpperAZ a && isUpperAZ b &&
            (match rest with | [] => true | d :: _ => !isWordChar d) then
          some (a, b)
        else findStateAbbrev t
      | _ => findStateAbbrev t
    else findStateAbbrev t

/-- `_detect_location` (`keywords.py` lines 175–227): the single location
resolver of the source, used by both the keyword-discovery fetch
(`get_keywords`, line 316) and the ranking-lookup fetch
(`get_ranked_keywords`, line 462). -/
def detect_location (location : Str) : Str :=
  let location_lower := pyLower location
  match intl_mappings.find? (fun e => isSubstr e.1 location_lower) with
  | some e => e.2
  | none =>
    match findStateAbbrev location with
    | some ab =>
      match us_states.find? (fun e => e.1 = [ab.1, ab.2]) with
      | some e => e.2 ++ str ",United States"
      | none => str "United States"
    | none => str "United States"

/-- The location resolution performed on the keyword-discovery path
(`get_keywords`, line 316: `target_location = _detect_location(location)`). -/
def discoveryLocation (location : Str) : Str := detect_location location

/-- The location resolution performed on the ranking-lookup path
(`get_ranked_keywords`, line 462:
`target_location = _detect_location(location)`). -/
def rankingLookupLocation (location : Str) : Str := detect_location location

/-! ## Filtering and intent normalization (`keywords.py`) -/

/-- `_is_blocked_brand` (`keywords.py` lines 230–232). -/
def is_blocked_brand (keyword : Str) : Bool :=
  BRAND_BLOCKLIST.any (fun brand => isSubstr brand (pyLower keyword))

/-- `_normalize_service_intent` (`keywords.py` lines 235–258): lowercase,
remove each known city name as a substring, strip a trailing two-letter
state-like token and the stop tokens `co` / `in`, then sort the remaining
whitespace-separated words and rejoin with single spaces. -/
def normalize_service_intent (keyword : Str) (known_cities : List Str) : Str :=
  let kw := pyLower keyword
  let kw := known_cities.foldl (fun acc city => pyReplace acc (pyLower city) []) kw
  let kw := subTrailingTwo kw
  let kw := subWord (str "co") kw
  let kw := subWord (str "in") kw
  joinSpace (sortLe leStr (pySplit kw))

/-- The base `service_signals` set literal of `_is_service_relevant`,
modelled as a list (only `any`-membership is ever taken, so iteration
order is immaterial). -/
def base_service_signals : List Str :=
  [str "service", str "services", str "contractor", str "company",
   str "repair", str "install", str "installation", str "removal",
   str "maintenance", str "cost", str "price", str "quote", str "estimate",
   str "emergency", str "residential", str "commercial", str "licensed",
   str "professional", str "near me", str "in my area"]

/-- The full signal vocabulary assembled by `_is_service_relevant`: the
base set, plus every word longer than two characters of the industry's
seed list (minus a small stop set), plus every word longer than two
characters of the supplied service names. -/
def service_signals (industry : Str) (services : List Str) : List Str :=
  let industry_key := pyReplace (pyLower industry) (str " ") (str "_")
  let fromSeeds :=
    match INDUSTRY_SEEDS.find? (fun e => e.1 = industry_key) with
    | some e =>
      (e.2.map pyLower).flatMap (fun seed =>
        (pySplit seed).filter (fun word =>
          2 < word.length ∧
            word ∉ [str "the", str "and", str "for", str "near"]))
    | none => []
  let fromServices :=
    services.flatMap (fun svc =>
      (pySplit (pyLower svc)).filter (fun word => 2 < word.length))
  base_service_signals ++ fromSeeds ++ fromServices

/-- `_is_service_relevant` (`keywords.py` lines 261–286).  An empty
`services` list models Python's `services=None` / `[]` (both falsy, both
skipped by `if services:`). -/
def is_service_relevant (keyword industry : Str) (services : List Str) : Bool :=
  (service_signals industry services).any
    (fun term => isSubstr term (pyLower keyword))

/-! ## `_parse_and_rank` (`keywords.py` lines 344–430), stage by stage.

The JSON traversal of step 1 (flattening `tasks[].result[]`) is modelled
by taking the input as the flat, order-preserving list of
`(keyword, search_volume)` pairs of the response items. -/

/-- Step 1: keep items with a nonempty keyword and a positive volume,
lowercasing the keyword (`raw.append((keyword.lower(), volume))`). -/
def parseRaw (items : List (Str × Int)) : List (Str × Int) :=
  items.filterMap (fun kv =>
    if kv.1 ≠ [] ∧ 0 < kv.2 then some (pyLower kv.1, kv.2) else none)

/-- Step 2: exact-string dedup keeping first occurrences (`seen_exact`). -/
def dedupExact : List (Str × Int) → List Str → List (Str × Int)
  | [], _ => []
  | (k, v) :: t, seen =>
    if k ∈ seen then dedupExact t seen
    else (k, v) :: dedupExact t (k :: seen)

/-- Step 3: drop blocked brands, irrelevant keywords, and keywords that
contain no known city name. -/
def filterStep (l : List (Str × Int)) (industry : Str)
    (services all_cities : List Str) : List (Str × Int) :=
  l.filter (fun kv =>
    !is_blocked_brand kv.1 && is_service_relevant kv.1 industry services &&
      all_cities.any (fun city => isSubstr (pyLower city) kv.1))

/-- Step 4's dict update: `intent_best[intent] = (kw, vol)` when the
intent is new (appended, preserving key insertion order) or when the new
volume is strictly larger (replaced in place). -/
def intentStep (all_cities : List Str) (m : List (Str × (Str × Int)))
    (kv : Str × Int) : List (Str × (Str × Int)) :=
  let intent := normalize_service_intent kv.1 all_cities
  match m.find? (fun e => e.1 = intent) with
  | none => m ++ [(intent, kv)]
  | some e =>
    if e.2.2 < kv.2 then
      m.map (fun e' => if e'.1 = intent then (intent, kv) else e')
    else m

/-- Step 4: semantic dedup — keep the highest-volume candidate per
normalized intent; `list(intent_best.values())` in key insertion order. -/
def intentBestValues (l : List (Str × Int)) (all_cities : List Str) :
    List (Str × Int) :=
  (l.foldl (intentStep all_cities) []).map (·.2)

/-- `unique_keywords.sort(key=lambda x: x[1], reverse=True)`: stable
descending sort by volume. -/
def leVol (a b : Str × Int) : Bool := b.2 ≤ a.2

/-- The city a keyword is attributed to in step 5: the first city of
`all_cities` (lowercased) occurring as a substring of the keyword. -/
def assignedCity (all_cities : List Str) (kw : Str) : Option Str :=
  (all_cities.find? (fun city => isSubstr (pyLower city) kw)).map pyLower

/-- Step 5, capped pass: walk the sorted list, stop at 10 entries, skip a
candidate whose (nonempty) assigned city already contributed 3 entries.
A falsy (empty) assigned city bypasses the counter, as `if kw_city:`
does. -/
def cappedGo (all_cities : List Str) :
    List (Str × Int) → List (Str × Int) → (Str → Nat) → List (Str × Int)
  | [], acc, _ => acc
  | (k, v) :: t, acc, counts =>
    if 10 ≤ acc.length then acc
    else
      match assignedCity all_cities k with
      | some c =>
        if c ≠ [] then
          if 3 ≤ counts c then cappedGo all_cities t acc counts
          else cappedGo all_cities t (acc ++ [(k, v)])
            (fun x => if x = c then counts c + 1 else counts x)
        else cappedGo all_cities t (acc ++ [(k, v)]) counts
      | none => cappedGo all_cities t (acc ++ [(k, v)]) counts

/-- Step 5, backfill pass: `used` is the set of keywords selected by the
capped pass (computed once); append any not-yet-included candidate until
10 are reached. -/
def backfillGo (used : List Str) :
    List (Str × Int) → List (Str × Int) → List (Str × Int)
  | [], acc => acc
  | (k, v) :: t, acc =>
    if 10 ≤ acc.length then acc
    else if k ∈ used then backfillGo used t acc
    else backfillGo used t (acc ++ [(k, v)])

/-- Steps 2–4 composed: the filtered, semantically deduplicated candidate
pool, sorted by descending volume. -/
def sortedUnique (items : List (Str × Int)) (industry : Str)
    (services all_cities : List Str) : List (Str × Int) :=
  sortLe leVol
    (intentBestValues
      (filterStep (dedupExact (parseRaw items) []) industry services all_cities)
      all_cities)

/-- The capped diversity pass over the sorted pool. -/
def cappedStage (items : List (Str × Int)) (industry : Str)
    (services all_cities : List Str) : List (Str × Int) :=
  cappedGo all_cities (sortedUnique items industry services all_cities) []
    (fun _ => 0)

/-- Step 5 complete: capped pass, then backfill only when fewer than 10
entries were selected. -/
def finalPairs (items : List (Str × Int)) (industry : Str)
    (services all_cities : List Str) : List (Str × Int) :=
  let capped := cappedStage items industry services all_cities
  if capped.length < 10 then
    backfillGo (capped.map (·.1))
      (sortedUnique items industry services all_cities) capped
  else capped

/-- `_parse_and_rank` (modulo the JSON flattening of step 1): the final
`KeywordData` list. -/
def parse_and_rank (items : List (Str × Int)) (industry : Str)
    (services all_cities : List Str) : List KeywordData :=
  (finalPairs items industry services all_cities).map
    (fun kv => { keyword := kv.1, monthly_searches := kv.2 })

/-! ## `check_ranking_for_keywords` (`keywords.py` lines 519–553) -/

/-- `check_ranking_for_keywords`: cross-reference opportunity keywords
against the domain's ranked keywords, by normalized intent
(`_normalize_service_intent`) with an exact lowercase fallback. -/
def check_ranking_for_keywords (opportunity_keywords : List KeywordData)
    (ranked_keywords : List RankedKeywordData) (all_cities : List Str) :
    List CheckResult :=
  let ranked_raw := ranked_keywords.map (fun rk => pyLower rk.keyword)
  let ranked_intents := ranked_keywords.map
    (fun rk => normalize_service_intent rk.keyword all_cities)
  opportunity_keywords.map (fun kw =>
    { keyword := kw.keyword
      monthly_searches := kw.monthly_searches
      on_old_site :=
        ranked_intents.contains (normalize_service_intent kw.keyword all_cities)
          || ranked_raw.contains (pyLower kw.keyword) })

/-- Adjacent-sortedness with respect to a boolean `le`. -/
def ChainLe (le : α → α → Bool) (l : List α) : Prop :=
  List.Chain' (fun a b => le a b = true) l

/-! ## Claim-side definitions

These state the spec's vocabulary so the claims can be expressed; the
pipeline definitions above are the code-side objects they are compared
with. -/

/-- Spec §4.3 ("Relevant"): does the keyword contain at least one of the
given terms as a case-insensitive substring? -/
def containsAnyTerm (terms : List Str) (keyword : Str) : Bool :=
  terms.any (fun t => isSubstr (pyLower t) (pyLower keyword))

/-- Spec §4.3 ("Not blocked"): the combined blocklist — the profile's
blocklist plus the fixed aggregator/marketplace list. -/
def combinedBlocklist (p : BusinessProfile) : List Str :=
  p.brand_blocklist ++ BRAND_BLOCKLIST

/-- The relevance predicate the pipeline applies for a profile: the call
sites (`web.py`, `get_keywords`) pass `profile.industry` and
`profile.services` into `_is_service_relevant`; no other profile field
reaches the filter. -/
def profileRelevant (p : BusinessProfile) (keyword : Str) : Bool :=
  is_service_relevant keyword p.industry p.services

/-- The seed list the pipeline produces for a profile: the call sites
pass `profile.industry`, `profile.location`, `profile.services` and
`profile.service_area_cities` into `generate_seed_keywords`. -/
def pipelineSeeds (p : BusinessProfile) : List Str :=
  generate_seed_keywords p.industry p.location p.services
    p.service_area_cities

/-- All state-level region identifiers of the form
`"{StateName},United States"` that `_detect_location` can produce. -/
def stateLevelIdentifiers : List Str :=
  us_states.map (fun e => e.2 ++ str ",United States")

/-- How many entries of a result list are attributed to city `c` by the
diversity pass's city-assignment rule. -/
def cityCount (all_cities : List Str) (c : Str) (l : List KeywordData) : Nat :=
  l.countP (fun kd => decide (assignedCity all_cities kd.keyword = some c))

/-- A profile whose `relevance_terms` are nonempty, used to test C2. -/
def relevanceProfile : BusinessProfile :=
  { business_name := str "x", industry := str "widget",
    industry_plural := str "widgets", business_model := str "local_service",
    location := str "Denver, CO", relevance_terms := [str "roofing"] }

/-- A profile with a profile-level blocklist entry, used to test C7. -/
def blockProfile : BusinessProfile :=
  { business_name := str "x", industry := str "widget",
    industry_plural := str "widgets", business_model := str "local_service",
    location := str "Denver, CO", brand_blocklist := [str "acme"] }

/-- A profile that supplies its own seed keywords, used to test C5. -/
def seedProfile : BusinessProfile :=
  { business_name := str "x", industry := str "plumbing",
    industry_plural := str "plumbers", business_model := str "local_service",
    location := str "Denver, CO", seed_keywords := [str "foo bar"] }

/-- Eleven relevant single-city candidates with distinct intents: a
filtered, deduplicated pool of size 11 that is all Denver. -/
def denverItems : List (Str × Int) :=
  [(str "denver repair alpha", 111), (str "denver repair bravo", 110),
   (str "denver repair charlie", 109), (str "denver repair delta", 108),
   (str "denver repair echo", 107), (str "denver repair foxtrot", 106),
   (str "denver repair golf", 105), (str "denver repair hotel", 104),
   (str "denver repair india", 103), (str "denver repair juliet", 102),
   (str "denver repair kilo", 101)]

/-- Twelve relevant candidates spread evenly over four cities: the capped
pass reaches 10 without backfill. -/
def fourCityItems : List (Str × Int) :=
  [(str "repair aaa alpha", 120), (str "repair bbb bravo", 119),
   (str "repair ccc charlie", 118), (str "repair ddd delta", 117),
   (str "repair aaa echo", 116), (str "repair bbb foxtrot", 115),
   (str "repair ccc golf", 114), (str "repair ddd hotel", 113),
   (str "repair aaa indigo", 112), (str "repair bbb juliet", 111),
   (str "repair ccc kilo", 110), (str "repair ddd lima", 109)]

/-- The four cities of `fourCityItems`. -/
def fourCities : List Str := [str "aaa", str "bbb", str "ccc", str "ddd"]


/-! ## Basic lemmas: case folding -/

/-- ASCII case folding is idempotent. -/
theorem lowerChar_idem (c : Char) : lowerChar (lowerChar c) = lowerChar c := by
  unfold lowerChar
  by_cases h : 65 ≤ c.toNat ∧ c.toNat ≤ 90
  · rw [if_pos h]
    have hv : (c.toNat + 32).isValidChar := Or.inl (by omega)
    have ht : (Char.ofNat (c.toNat + 32)).toNat = c.toNat + 32 := by
      unfold Char.ofNat
      rw [dif_pos hv]
      simp [Char.ofNatAux, Char.toNat, UInt32.toNat, BitVec.toNat_ofNatLt]
    rw [if_neg (by rw [ht]; omega)]
  · rw [if_neg h, if_neg h]

/-- Lowercasing a string twice is the same as lowercasing it once. -/
theorem pyLower_idem (s : Str) : pyLower (pyLower s) = pyLower s := by
  simp only [pyLower, List.map_map]
  exact List.map_congr_left (fun a _ => lowerChar_idem a)

/-! ## Basic lemmas: the stable insertion sort -/

theorem insLe_perm (le : α → α → Bool) (x : α) (l : List α) :
    (insLe le x l).Perm (x :: l) := by
  induction l with
  | nil => exact List.Perm.refl _
  | cons y ys ih =>
    by_cases h : le x y
    · simp [insLe, h]
    · simp only [insLe, h, Bool.false_eq_true, if_false]
      exact (ih.cons y).trans (List.Perm.swap x y ys)

theorem sortLe_perm (le : α → α → Bool) (l : List α) :
    (sortLe le l).Perm l := by
  induction l with
  | nil => exact List.Perm.refl _
  | cons x xs ih => exact (insLe_perm le x (sortLe le xs)).trans (ih.cons x)

theorem mem_sortLe {le : α → α → Bool} {l : List α} {x : α} :
    x ∈ sortLe le l ↔ x ∈ l := (sortLe_perm le l).mem_iff


theorem chainLe_insLe {le : α → α → Bool}
    (htot : ∀ a b, le a b = true ∨ le b a = true) (x : α) {l : List α}
    (h : ChainLe le l) : ChainLe le (insLe le x l) := by
  induction l with
  | nil => simp [insLe, ChainLe]
  | cons y ys ih =>
    by_cases hxy : le x y
    · simpa [insLe, hxy, ChainLe] using h
    · simp only [insLe, hxy, Bool.false_eq_true, if_false]
      have hyx : le y x = true := (htot x y).resolve_left (by simp [hxy])
      have htail : ChainLe le (insLe le x ys) := ih h.tail
      refine List.chain'_cons'.mpr ⟨?_, htail⟩
      intro z hz
      cases ys with
      | nil =>
        simp only [insLe, List.head?_cons, Option.mem_def, Option.some.injEq]
          at hz
        exact hz ▸ hyx
      | cons w ws =>
        by_cases hxw : le x w
        · simp only [insLe, hxw, if_true, List.head?_cons, Option.mem_def,
            Option.some.injEq] at hz
          exact hz ▸ hyx
        · simp only [insLe, hxw, Bool.false_eq_true, if_false,
            List.head?_cons, Option.mem_def, Option.some.injEq] at hz
          exact hz ▸ (List.chain'_cons.mp h).1

theorem chainLe_sortLe {le : α → α → Bool}
    (htot : ∀ a b, le a b = true ∨ le b a = true) (l : List α) :
    ChainLe le (sortLe le l) := by
  induction l with
  | nil => simp [sortLe, ChainLe]
  | cons x xs ih => exact chainLe_insLe htot x ih

theorem sortLe_eq_self {le : α → α → Bool} {l : List α}
    (h : ChainLe le l) : sortLe le l = l := by
  induction l with
  | nil => rfl
  | cons x xs ih =>
    have hx : sortLe le (x :: xs) = insLe le x (sortLe le xs) := rfl
    rw [hx, ih h.tail]
    cases xs with
    | nil => rfl
    | cons y ys =>
      have hxy : le x y = true := (List.chain'_cons.mp h).1
      simp [insLe, hxy]

theorem sortLe_idem {le : α → α → Bool}
    (htot : ∀ a b, le a b = true ∨ le b a = true) (l : List α) :
    sortLe le (sortLe le l) = sortLe le l :=
  sortLe_eq_self (chainLe_sortLe htot l)

/-- `leStr` is total. -/
theorem leStr_total (a b : Str) : leStr a b = true ∨ leStr b a = true := by
  induction a generalizing b with
  | nil => left; rfl
  | cons c cs ih =>
    cases b with
    | nil => right; rfl
    | cons d ds =>
      rcases Nat.lt_trichotomy c.toNat d.toNat with h | h | h
      · left; simp [leStr, h]
      · have h2 : ¬c.toNat < d.toNat := by omega
        have h3 : ¬d.toNat < c.toNat := by omega
        rcases ih ds with hl | hr
        · left; simp [leStr, h2, h3, hl]
        · right; simp [leStr, h2, h3, hr]
      · right; simp [leStr, h]

/-! ## Character-level lemmas about the normalization primitives -/

theorem mem_replaceFuel_nil {pat : Str} {c : Char} :
    ∀ {n : Nat} {s : Str}, c ∈ replaceFuel pat [] n s → c ∈ s := by
  intro n
  induction n with
  | zero =>
    intro s h
    cases s with
    | nil => simpa [replaceFuel] using h
    | cons d t =>
      simp only [replaceFuel] at h
      exact h
  | succ n ih =>
    intro s h
    cases s with
    | nil => simpa [replaceFuel] using h
    | cons d t =>
      simp only [replaceFuel] at h
      split at h
      · simp only [List.nil_append] at h
        exact List.mem_of_mem_drop (ih h)
      · rcases List.mem_cons.mp h with rfl | h
        · simp
        · exact List.mem_cons_of_mem _ (ih h)

theorem mem_pyReplace_nil {pat s : Str} {c : Char}
    (h : c ∈ pyReplace s pat []) : c ∈ s := mem_replaceFuel_nil h

theorem mem_subTrailingTwo {s : Str} {c : Char}
    (h : c ∈ subTrailingTwo s) : c ∈ s := by
  unfold subTrailingTwo at h
  by_cases he : endsTwoLetterWord s = true
  · rw [if_pos he] at h
    exact (List.take_sublist _ _).mem h
  · rw [if_neg he] at h
    exact h

theorem mem_subWordFuel {w : Str} {c : Char} :
    ∀ {n : Nat} {p : Bool} {s : Str}, c ∈ subWordFuel w n p s → c ∈ s := by
  intro n
  induction n with
  | zero =>
    intro p s h
    cases s with
    | nil => simpa [subWordFuel] using h
    | cons d t =>
      simp only [subWordFuel] at h
      exact h
  | succ n ih =>
    intro p s h
    cases s with
    | nil => simpa [subWordFuel] using h
    | cons d t =>
      simp only [subWordFuel] at h
      split at h
      · exact List.mem_cons_of_mem _ (List.mem_of_mem_drop (ih h))
      · rcases List.mem_cons.mp h with rfl | h
        · simp
        · exact List.mem_cons_of_mem _ (ih h)

theorem mem_subWord {w s : Str} {c : Char}
    (h : c ∈ subWord w s) : c ∈ s := mem_subWordFuel h

theorem mem_of_mem_pySplitFuel {c : Char} :
    ∀ {n : Nat} {s w : Str}, w ∈ pySplitFuel n s → c ∈ w → c ∈ s := by
  intro n
  induction n with
  | zero =>
    intro s w hw
    cases s with
    | nil => simp [pySplitFuel] at hw
    | cons d t => simp [pySplitFuel] at hw
  | succ n ih =>
    intro s w hw hc
    cases s with
    | nil => simp [pySplitFuel] at hw
    | cons d t =>
      simp only [pySplitFuel] at hw
      split at hw
      · exact List.mem_cons_of_mem _ (ih hw hc)
      · rcases List.mem_cons.mp hw with rfl | hw
        · rcases List.mem_cons.mp hc with rfl | hc
          · simp
          · exact List.mem_cons_of_mem _
              ((List.takeWhile_sublist _).subset hc)
        · exact List.mem_cons_of_mem _
            ((List.dropWhile_sublist _).subset (ih hw hc))

theorem mem_of_mem_pySplit {s w : Str} {c : Char}
    (hw : w ∈ pySplit s) (hc : c ∈ w) : c ∈ s :=
  mem_of_mem_pySplitFuel hw hc

/-- Every token produced by `pySplitFuel` is nonempty and
whitespace-free. -/
theorem pySplitFuel_token_ok :
    ∀ {n : Nat} {s w : Str}, w ∈ pySplitFuel n s →
      w ≠ [] ∧ ∀ c ∈ w, ¬c.isWhitespace = true := by
  intro n
  induction n with
  | zero =>
    intro s w hw
    cases s with
    | nil => simp [pySplitFuel] at hw
    | cons d t => simp [pySplitFuel] at hw
  | succ n ih =>
    intro s w hw
    cases s with
    | nil => simp [pySplitFuel] at hw
    | cons d t =>
      simp only [pySplitFuel] at hw
      split at hw
      · exact ih hw
      · rcases List.mem_cons.mp hw with rfl | hw
        · refine ⟨by simp, ?_⟩
          intro c hc
          rcases List.mem_cons.mp hc with rfl | hc
          · rename_i hws
            simpa using hws
          · have := List.mem_takeWhile_imp hc
            simpa using this
        · exact ih hw

/-- Every token produced by `pySplit` is nonempty and whitespace-free. -/
theorem pySplit_token_ok {s w : Str} (hw : w ∈ pySplit s) :
    w ≠ [] ∧ ∀ c ∈ w, ¬c.isWhitespace = true :=
  pySplitFuel_token_ok hw

/-- Any fuel at least the string length computes the same split. -/
theorem pySplitFuel_eq : ∀ (n m : Nat) (s : Str), s.length ≤ n →
    s.length ≤ m → pySplitFuel n s = pySplitFuel m s := by
  intro n
  induction n with
  | zero =>
    intro m s hn hm
    cases s with
    | nil => cases m <;> simp [pySplitFuel]
    | cons d t => simp at hn
  | succ n ih =>
    intro m s hn hm
    cases s with
    | nil => cases m <;> simp [pySplitFuel]
    | cons d t =>
      cases m with
      | zero => simp at hm
      | succ m =>
        simp only [pySplitFuel]
        simp only [List.length_cons] at hn hm
        by_cases hws : d.isWhitespace
        · rw [if_pos hws, if_pos hws]
          exact ih m t (by omega) (by omega)
        · rw [if_neg hws, if_neg hws]
          have hlen : (t.dropWhile (fun e => !e.isWhitespace)).length ≤
              t.length := (List.dropWhile_sublist _).length_le
          rw [ih m _ (by omega) (by omega)]

/-- One-step unfolding of `pySplit` on a nonempty string. -/
theorem pySplit_cons (c : Char) (t : Str) :
    pySplit (c :: t) = if c.isWhitespace then pySplit t
      else (c :: t.takeWhile (fun d => !d.isWhitespace)) ::
        pySplit (t.dropWhile (fun d => !d.isWhitespace)) := by
  by_cases hws : c.isWhitespace
  · rw [if_pos hws]
    show pySplitFuel (t.length + 1) (c :: t) = pySplit t
    simp only [pySplitFuel, if_pos hws]
    rfl
  · rw [if_neg hws]
    show pySplitFuel (t.length + 1) (c :: t) = _
    simp only [pySplitFuel, if_neg hws]
    have hlen : (t.dropWhile (fun e => !e.isWhitespace)).length ≤
        t.length := (List.dropWhile_sublist _).length_le
    rw [pySplitFuel_eq t.length
      (t.dropWhile (fun d => !d.isWhitespace)).length _ hlen (Nat.le_refl _)]
    rfl

theorem mem_joinSpace {ws : List Str} {c : Char} (h : c ∈ joinSpace ws) :
    c = ' ' ∨ ∃ w ∈ ws, c ∈ w := by
  induction ws with
  | nil => simp [joinSpace] at h
  | cons w ws ih =>
    cases ws with
    | nil =>
      right
      exact ⟨w, by simp, h⟩
    | cons w' ws' =>
      have h2 : c ∈ w ++ ' ' :: joinSpace (w' :: ws') := h
      rcases List.mem_append.mp h2 with h3 | h3
      · exact Or.inr ⟨w, by simp, h3⟩
      · rcases List.mem_cons.mp h3 with rfl | h4
        · exact Or.inl rfl
        · rcases ih h4 with h5 | ⟨u, hu, hcu⟩
          · exact Or.inl h5
          · exact Or.inr ⟨u, List.mem_cons_of_mem _ hu, hcu⟩

theorem takeWhile_append_of_all {p : Char → Bool} {t l : Str}
    (h : ∀ c ∈ t, p c = true) : (t ++ l).takeWhile p = t ++ l.takeWhile p := by
  induction t with
  | nil => simp
  | cons d t ih =>
    simp only [List.cons_append, List.takeWhile_cons, h d (by simp), if_true]
    rw [ih (fun c hc => h c (List.mem_cons_of_mem _ hc))]

theorem dropWhile_append_of_all {p : Char → Bool} {t l : Str}
    (h : ∀ c ∈ t, p c = true) : (t ++ l).dropWhile p = l.dropWhile p := by
  induction t with
  | nil => simp
  | cons d t ih =>
    simp only [List.cons_append, List.dropWhile_cons, h d (by simp), if_true]
    exact ih (fun c hc => h c (List.mem_cons_of_mem _ hc))

/-- Splitting the space-join of nonempty whitespace-free tokens recovers
the tokens. -/
theorem pySplit_joinSpace {ws : List Str}
    (h : ∀ w ∈ ws, w ≠ [] ∧ ∀ c ∈ w, ¬c.isWhitespace = true) :
    pySplit (joinSpace ws) = ws := by
  induction ws with
  | nil => rfl
  | cons w ws ih =>
    obtain ⟨hne, hnw⟩ := h w (by simp)
    rcases hw : w with _ | ⟨c, t⟩
    · exact absurd hw hne
    · have hct : ∀ d ∈ t, (!d.isWhitespace) = true := by
        intro d hd
        have := hnw d (by rw [hw]; exact List.mem_cons_of_mem _ hd)
        simpa using this
      have hcw : ¬c.isWhitespace = true := by
        have := hnw c (by rw [hw]; simp)
        simpa using this
      cases ws with
      | nil =>
        show pySplit (c :: t) = [c :: t]
        rw [pySplit_cons, if_neg hcw]
        rw [List.takeWhile_eq_self_iff.mpr hct,
          List.dropWhile_eq_nil_iff.mpr (fun d hd => hct d hd)]
        rfl
      | cons w' ws' =>
        show pySplit ((c :: t) ++ ' ' :: joinSpace (w' :: ws')) = _
        rw [List.cons_append, pySplit_cons, if_neg hcw]
        rw [takeWhile_append_of_all hct, dropWhile_append_of_all hct]
        have hsp : ((' ').isWhitespace : Bool) = true := by decide
        rw [show (' ' :: joinSpace (w' :: ws')).takeWhile
            (fun d => !d.isWhitespace) = [] from by
          rw [List.takeWhile_cons]; simp]
        rw [show (' ' :: joinSpace (w' :: ws')).dropWhile
            (fun d => !d.isWhitespace) = ' ' :: joinSpace (w' :: ws') from by
          rw [List.dropWhile_cons]; simp]
        rw [List.append_nil]
        have htail : pySplit (' ' :: joinSpace (w' :: ws')) =
            pySplit (joinSpace (w' :: ws')) := by
          rw [pySplit_cons, if_pos hsp]
        rw [htail, ih (fun u hu => h u (List.mem_cons_of_mem _ hu))]

/-! ## Lemmas about `_normalize_service_intent` -/

theorem mem_foldl_replace {cities : List Str} {s : Str} {c : Char}
    (h : c ∈ cities.foldl
      (fun acc city => pyReplace acc (pyLower city) []) s) : c ∈ s := by
  induction cities generalizing s with
  | nil => exact h
  | cons city rest ih =>
    simp only [List.foldl_cons] at h
    exact mem_pyReplace_nil (ih h)

/-- Every character of a normalized intent string is fixed by ASCII case
folding (it is a space or comes from the lowercased input). -/
theorem lowerChar_fixed_of_mem_normalize {k : Str} {cs : List Str} {c : Char}
    (h : c ∈ normalize_service_intent k cs) : lowerChar c = c := by
  unfold normalize_service_intent at h
  rcases mem_joinSpace h with rfl | ⟨w, hw, hcw⟩
  · decide
  · have h3 := mem_of_mem_pySplit (mem_sortLe.mp hw) hcw
    have h4 := mem_subWord h3
    have h5 := mem_subWord h4
    have h6 := mem_subTrailingTwo h5
    have h7 := mem_foldl_replace h6
    simp only [pyLower, List.mem_map] at h7
    obtain ⟨a, _, rfl⟩ := h7
    exact lowerChar_idem a

theorem pyLower_normalize (k : Str) (cs : List Str) :
    pyLower (normalize_service_intent k cs) = normalize_service_intent k cs := by
  unfold pyLower
  calc (normalize_service_intent k cs).map lowerChar
      = (normalize_service_intent k cs).map id :=
        List.map_congr_left
          (fun a ha => lowerChar_fixed_of_mem_normalize ha)
    _ = normalize_service_intent k cs := List.map_id _

/-! ## Lemmas about the `_parse_and_rank` stages -/

theorem mem_dedupExact {l : List (Str × Int)} {seen : List Str}
    {x : Str × Int} (h : x ∈ dedupExact l seen) : x ∈ l := by
  induction l generalizing seen with
  | nil => simp [dedupExact] at h
  | cons kv t ih =>
    obtain ⟨k, v⟩ := kv
    rw [dedupExact] at h
    by_cases hk : k ∈ seen
    · rw [if_pos hk] at h
      exact List.mem_cons_of_mem _ (ih h)
    · rw [if_neg hk] at h
      rcases List.mem_cons.mp h with rfl | h
      · simp
      · exact List.mem_cons_of_mem _ (ih h)

theorem dedupExact_nodup (l : List (Str × Int)) (seen : List Str) :
    ((dedupExact l seen).map Prod.fst).Nodup ∧
      ∀ k ∈ (dedupExact l seen).map Prod.fst, k ∉ seen := by
  induction l generalizing seen with
  | nil => simp [dedupExact]
  | cons kv t ih =>
    obtain ⟨k, v⟩ := kv
    rw [dedupExact]
    by_cases hk : k ∈ seen
    · rw [if_pos hk]
      exact ih seen
    · rw [if_neg hk]
      obtain ⟨hnodup, hnot⟩ := ih (k :: seen)
      refine ⟨?_, ?_⟩
      · simp only [List.map_cons, List.nodup_cons]
        exact ⟨fun hmem => (hnot k hmem) (by simp), hnodup⟩
      · intro k' hk'
        simp only [List.map_cons, List.mem_cons] at hk'
        rcases hk' with rfl | hk'
        · exact hk
        · exact fun hs => (hnot k' hk') (List.mem_cons_of_mem _ hs)

/-- The key stored with each entry of the intent dict is the normalized
intent of the entry's keyword. -/
theorem intentFold_key_inv (cities : List Str) (l : List (Str × Int))
    (m : List (Str × (Str × Int)))
    (hm : ∀ e ∈ m, e.1 = normalize_service_intent e.2.1 cities) :
    ∀ e ∈ l.foldl (intentStep cities) m,
      e.1 = normalize_service_intent e.2.1 cities := by
  induction l generalizing m with
  | nil => exact hm
  | cons kv t ih =>
    simp only [List.foldl_cons]
    refine ih _ ?_
    intro e he
    simp only [intentStep] at he
    rcases hfind : (m.find? (fun e => e.1 =
        normalize_service_intent kv.1 cities)) with _ | e0
    · rw [hfind] at he
      dsimp only at he
      rcases List.mem_append.mp he with he | he
      · exact hm e he
      · simp only [List.mem_singleton] at he
        subst he
        rfl
    · rw [hfind] at he
      dsimp only at he
      by_cases hv : e0.2.2 < kv.2
      · rw [if_pos hv] at he
        simp only [List.mem_map] at he
        obtain ⟨e', he', heq⟩ := he
        by_cases hcase : e'.1 = normalize_service_intent kv.1 cities
        · rw [if_pos hcase] at heq
          subst heq
          rfl
        · rw [if_neg hcase] at heq
          subst heq
          exact hm e' he'
      · rw [if_neg hv] at he
        exact hm e he

/-- The intent dict has pairwise-distinct keys. -/
theorem intentFold_keys_nodup (cities : List Str) (l : List (Str × Int))
    (m : List (Str × (Str × Int))) (hm : (m.map Prod.fst).Nodup) :
    ((l.foldl (intentStep cities) m).map Prod.fst).Nodup := by
  induction l generalizing m with
  | nil => exact hm
  | cons kv t ih =>
    simp only [List.foldl_cons]
    refine ih _ ?_
    simp only [intentStep]
    rcases hfind : (m.find? (fun e => e.1 =
        normalize_service_intent kv.1 cities)) with _ | e0
    · rw [hfind]
      dsimp only
      have hnotin : normalize_service_intent kv.1 cities ∉ m.map Prod.fst := by
        intro hmem
        simp only [List.mem_map] at hmem
        obtain ⟨e, he, heq⟩ := hmem
        have := List.find?_eq_none.mp hfind e he
        simp [heq] at this
      simp only [List.map_append, List.map_cons, List.map_nil]
      rw [List.nodup_append]
      refine ⟨hm, List.nodup_singleton _, ?_⟩
      intro a ha hb
      simp only [List.mem_singleton] at hb
      exact hnotin (hb ▸ ha)
    · rw [hfind]
      dsimp only
      by_cases hv : e0.2.2 < kv.2
      · rw [if_pos hv]
        have hmap : (m.map (fun e' =>
            if e'.1 = normalize_service_intent kv.1 cities then
              (normalize_service_intent kv.1 cities, kv) else e')).map Prod.fst
            = m.map Prod.fst := by
          rw [List.map_map]
          refine List.map_congr_left ?_
          intro e _
          by_cases hcase : e.1 = normalize_service_intent kv.1 cities
          · simp [hcase]
          · simp [hcase]
        rw [hmap]
        exact hm
      · rw [if_neg hv]
        exact hm

/-- Every value of the intent dict satisfies any property that held of
the initial values and of all inserted candidates. -/
theorem intentFold_values_pred (cities : List Str) (P : Str × Int → Prop)
    (l : List (Str × Int)) (m : List (Str × (Str × Int)))
    (hm : ∀ e ∈ m, P e.2) (hl : ∀ x ∈ l, P x) :
    ∀ e ∈ l.foldl (intentStep cities) m, P e.2 := by
  induction l generalizing m with
  | nil => exact hm
  | cons kv t ih =>
    simp only [List.foldl_cons]
    refine ih _ ?_ (fun x hx => hl x (List.mem_cons_of_mem _ hx))
    intro e he
    simp only [intentStep] at he
    rcases hfind : (m.find? (fun e => e.1 =
        normalize_service_intent kv.1 cities)) with _ | e0
    · rw [hfind] at he
      dsimp only at he
      rcases List.mem_append.mp he with he | he
      · exact hm e he
      · simp only [List.mem_singleton] at he
        subst he
        exact hl kv (by simp)
    · rw [hfind] at he
      dsimp only at he
      by_cases hv : e0.2.2 < kv.2
      · rw [if_pos hv] at he
        simp only [List.mem_map] at he
        obtain ⟨e', he', heq⟩ := he
        by_cases hcase : e'.1 = normalize_service_intent kv.1 cities
        · rw [if_pos hcase] at heq
          subst heq
          exact hl kv (by simp)
        · rw [if_neg hcase] at heq
          subst heq
          exact hm e' he'
      · rw [if_neg hv] at he
        exact hm e he

/-- The keywords of `intentBestValues` are pairwise distinct: distinct
entries have distinct intent keys, and the key is a function of the
keyword. -/
theorem intentBestValues_kw_nodup (l : List (Str × Int)) (cities : List Str) :
    ((intentBestValues l cities).map Prod.fst).Nodup := by
  unfold intentBestValues
  have hkeys := intentFold_keys_nodup cities l [] (by simp)
  have hinv := intentFold_key_inv cities l [] (by simp)
  set m := l.foldl (intentStep cities) [] with hm
  have heq : m.map Prod.fst =
      ((m.map (·.2)).map Prod.fst).map
        (fun kw => normalize_service_intent kw cities) := by
    rw [List.map_map, List.map_map]
    exact List.map_congr_left (fun e he => hinv e he)
  rw [heq] at hkeys
  exact hkeys.of_map _

/-- The capped pass returns its accumulator followed by a sublist of the
remaining candidates. -/
theorem cappedGo_decomp (cities : List Str) :
    ∀ (rem acc : List (Str × Int)) (counts : Str → Nat),
      ∃ r, cappedGo cities rem acc counts = acc ++ r ∧ r.Sublist rem := by
  intro rem
  induction rem with
  | nil => exact fun acc counts => ⟨[], by simp [cappedGo]⟩
  | cons kv t ih =>
    intro acc counts
    obtain ⟨k, v⟩ := kv
    rw [cappedGo]
    by_cases hlen : 10 ≤ acc.length
    · exact ⟨[], by simp [hlen]⟩
    · rw [if_neg hlen]
      rcases hcity : assignedCity cities k with _ | c
    
      · obtain ⟨r, hr, hsub⟩ := ih (acc ++ [(k, v)]) counts
        exact ⟨(k, v) :: r, by simpa using hr, hsub.cons₂ _⟩
      · dsimp only
        by_cases hc : c ≠ []
        · rw [if_pos hc]
          by_cases h3 : 3 ≤ counts c
          · rw [if_pos h3]
            obtain ⟨r, hr, hsub⟩ := ih acc counts
            exact ⟨r, hr, hsub.cons _⟩
          · rw [if_neg h3]
            obtain ⟨r, hr, hsub⟩ :=
              ih (acc ++ [(k, v)]) (fun x => if x = c then counts c + 1 else counts x)
            exact ⟨(k, v) :: r, by simpa using hr, hsub.cons₂ _⟩
        · rw [if_neg hc]
          obtain ⟨r, hr, hsub⟩ := ih (acc ++ [(k, v)]) counts
          exact ⟨(k, v) :: r, by simpa using hr, hsub.cons₂ _⟩

/-- The backfill pass returns its accumulator followed by a sublist of
the remaining candidates, none of whose keywords are in `used`. -/
theorem backfillGo_decomp (used : List Str) :
    ∀ (rem acc : List (Str × Int)),
      ∃ r, backfillGo used rem acc = acc ++ r ∧ r.Sublist rem ∧
        ∀ x ∈ r, x.1 ∉ used := by
  intro rem
  induction rem with
  | nil => exact fun acc => ⟨[], by simp [backfillGo]⟩
  | cons kv t ih =>
    intro acc
    obtain ⟨k, v⟩ := kv
    rw [backfillGo]
    by_cases hlen : 10 ≤ acc.length
    · exact ⟨[], by simp [hlen]⟩
    · rw [if_neg hlen]
      by_cases hk : k ∈ used
      · rw [if_pos hk]
        obtain ⟨r, hr, hsub, hnot⟩ := ih acc
        exact ⟨r, hr, hsub.cons _, hnot⟩
      · rw [if_neg hk]
        obtain ⟨r, hr, hsub, hnot⟩ := ih (acc ++ [(k, v)])
        refine ⟨(k, v) :: r, by simpa using hr, hsub.cons₂ _, ?_⟩
        intro x hx
        rcases List.mem_cons.mp hx with rfl | hx
        · exact hk
        · exact hnot x hx

/-- Membership chain: everything in the final pair list comes from the
sorted, deduplicated pool. -/
theorem mem_finalPairs {items : List (Str × Int)} {industry : Str}
    {services all_cities : List Str} {x : Str × Int}
    (h : x ∈ finalPairs items industry services all_cities) :
    x ∈ sortedUnique items industry services all_cities := by
  unfold finalPairs at h
  obtain ⟨r, hr, hsub⟩ := cappedGo_decomp all_cities
    (sortedUnique items industry services all_cities) [] (fun _ => 0)
  by_cases hlen : (cappedStage items industry services all_cities).length < 10
  · rw [if_pos hlen] at h
    obtain ⟨r2, hr2, hsub2, _⟩ := backfillGo_decomp
      ((cappedStage items industry services all_cities).map (·.1))
      (sortedUnique items industry services all_cities)
      (cappedStage items industry services all_cities)
    rw [hr2] at h
    rcases List.mem_append.mp h with h | h
    · unfold cappedStage at h
      rw [hr] at h
      simp only [List.nil_append] at h
      exact hsub.subset h
    · exact hsub2.subset h
  · rw [if_neg hlen] at h
    unfold cappedStage at h
    rw [hr] at h
    simp only [List.nil_append] at h
    exact hsub.subset h

/-- Membership chain: everything in the sorted pool comes from the
filtered candidate list. -/
theorem mem_sortedUnique {items : List (Str × Int)} {industry : Str}
    {services all_cities : List Str} {x : Str × Int}
    (h : x ∈ sortedUnique items industry services all_cities) :
    x ∈ filterStep (dedupExact (parseRaw items) []) industry services
      all_cities := by
  unfold sortedUnique at h
  have hv := mem_sortLe.mp h
  unfold intentBestValues at hv
  simp only [List.mem_map] at hv
  obtain ⟨e, he, rfl⟩ := hv
  exact intentFold_values_pred _
    (fun y => y ∈ filterStep (dedupExact (parseRaw items) []) industry
      services all_cities) _ [] (by simp) (fun y hy => hy) e he

/-- Invariant of the capped pass: provided the running counter matches the
accumulator and is capped at 3, every nonempty city is assigned at most 3
entries of the capped pass's output. -/
theorem cappedGo_citycap (cities : List Str) :
    ∀ (rem acc : List (Str × Int)) (counts : Str → Nat),
      (∀ c : Str, c ≠ [] →
        acc.countP (fun e => decide (assignedCity cities e.1 = some c)) =
          counts c ∧ counts c ≤ 3) →
      ∀ c : Str, c ≠ [] →
        (cappedGo cities rem acc counts).countP
          (fun e => decide (assignedCity cities e.1 = some c)) ≤ 3 := by
  intro rem
  induction rem with
  | nil =>
    intro acc counts hinv c hc
    rw [cappedGo]
    exact (hinv c hc).1 ▸ (hinv c hc).2
  | cons kv t ih =>
    intro acc counts hinv c hc
    obtain ⟨k, v⟩ := kv
    rw [cappedGo]
    by_cases hlen : 10 ≤ acc.length
    · rw [if_pos hlen]
      exact (hinv c hc).1 ▸ (hinv c hc).2
    · rw [if_neg hlen]
      rcases hcity : assignedCity cities k with _ | c'
      · refine ih _ _ ?_ c hc
        intro c0 hc0
        refine ⟨?_, (hinv c0 hc0).2⟩
        rw [List.countP_append, List.countP_cons, List.countP_nil]
        simp only [hcity]
        simpa using (hinv c0 hc0).1
      · dsimp only
        by_cases hcne : c' ≠ []
        · rw [if_pos hcne]
          by_cases h3 : 3 ≤ counts c'
          · rw [if_pos h3]
            exact ih _ _ hinv c hc
          · rw [if_neg h3]
            refine ih _ _ ?_ c hc
            intro c0 hc0
            by_cases hcc : c0 = c'
            · subst hcc
              refine ⟨?_, by simp; omega⟩
              rw [List.countP_append, List.countP_cons, List.countP_nil]
              simp only [hcity, if_pos rfl]
              have := (hinv c0 hc0).1
              simp only [this]
              simp
            · refine ⟨?_, ?_⟩
              · rw [List.countP_append, List.countP_cons, List.countP_nil]
                have hpred : decide (assignedCity cities k = some c0) = false := by
                  simp only [hcity]
                  simp only [decide_eq_false_iff_not]
                  intro heq
                  exact hcc (Option.some.inj heq).symm
                simp only [hpred, if_neg (fun hx => hcc hx)]
                simpa using (hinv c0 hc0).1
              · rw [if_neg (fun hx => hcc hx)]
                exact (hinv c0 hc0).2
        · rw [if_neg hcne]
          have hc'nil : c' = [] := not_not.mp hcne
          refine ih _ _ ?_ c hc
          intro c0 hc0
          refine ⟨?_, (hinv c0 hc0).2⟩
          rw [List.countP_append, List.countP_cons, List.countP_nil]
          have hpred : decide (assignedCity cities k = some c0) = false := by
            simp only [hcity, hc'nil]
            simp only [decide_eq_false_iff_not]
            intro hcontra
            exact hc0 (Option.some.inj hcontra).symm
          simp only [hpred]
          simpa using (hinv c0 hc0).1

/-- The keyword strings of the final pair list are pairwise distinct. -/
theorem finalPairs_fst_nodup (items : List (Str × Int)) (industry : Str)
    (services all_cities : List Str) :
    ((finalPairs items industry services all_cities).map Prod.fst).Nodup := by
  have hvalNodup := intentBestValues_kw_nodup
    (filterStep (dedupExact (parseRaw items) []) industry services all_cities)
    all_cities
  have hsortNodup : ((sortedUnique items industry services
      all_cities).map Prod.fst).Nodup := by
    have hperm := (sortLe_perm leVol (intentBestValues
      (filterStep (dedupExact (parseRaw items) []) industry services
        all_cities) all_cities)).map Prod.fst
    exact (hperm.nodup_iff).mpr hvalNodup
  obtain ⟨r, hr, hsub⟩ := cappedGo_decomp all_cities
    (sortedUnique items industry services all_cities) [] (fun _ => 0)
  have hcapNodup : ((cappedStage items industry services
      all_cities).map Prod.fst).Nodup := by
    unfold cappedStage
    rw [hr]
    simp only [List.nil_append]
    exact ((hsub.map Prod.fst).nodup hsortNodup)
  unfold finalPairs
  by_cases hlen : (cappedStage items industry services all_cities).length < 10
  · rw [if_pos hlen]
    obtain ⟨r2, hr2, hsub2, hnot2⟩ := backfillGo_decomp
      ((cappedStage items industry services all_cities).map (·.1))
      (sortedUnique items industry services all_cities)
      (cappedStage items industry services all_cities)
    rw [hr2, List.map_append, List.nodup_append]
    refine ⟨hcapNodup, (hsub2.map Prod.fst).nodup hsortNodup, ?_⟩
    intro a ha hb
    simp only [List.mem_map] at hb
    obtain ⟨x, hx, rfl⟩ := hb
    exact hnot2 x hx ha
  · rw [if_neg hlen]
    exact hcapNodup

theorem parseRaw_lowered {items : List (Str × Int)} {x : Str × Int}
    (h : x ∈ parseRaw items) : pyLower x.1 = x.1 := by
  unfold parseRaw at h
  simp only [List.mem_filterMap] at h
  obtain ⟨a, _, ha⟩ := h
  by_cases hc : a.1 ≠ [] ∧ 0 < a.2
  · rw [if_pos hc] at ha
    obtain rfl := Option.some.inj ha
    exact pyLower_idem a.1
  · rw [if_neg hc] at ha
    cases ha

/-- Every keyword in the final pair list is already lowercase. -/
theorem finalPairs_lowered {items : List (Str × Int)} {industry : Str}
    {services all_cities : List Str} {x : Str × Int}
    (h : x ∈ finalPairs items industry services all_cities) :
    pyLower x.1 = x.1 := by
  have h1 := mem_sortedUnique (mem_finalPairs h)
  unfold filterStep at h1
  have h2 := (List.mem_filter.mp h1).1
  exact parseRaw_lowered (mem_dedupExact h2)

/-! ## Claim theorems -/

/-- C1, counterexample: with ranked keyword "Denver Plumbers", final
candidate "plumber denver" and known cities ["Denver"],
`check_ranking_for_keywords` marks the candidate ABSENT — the claim's
`on_existing_site = true` is false on the code, because the
cross-referencer applies no stemmer. -/
theorem claimC1_counterexample :
    (check_ranking_for_keywords
      [{ keyword := str "plumber denver", monthly_searches := 500 }]
      [{ keyword := str "Denver Plumbers", search_volume := 500,
         rank_position := 1, serp_type := str "organic" }]
      [str "Denver"]).map CheckResult.on_old_site = [false] := by
  decide

/-- C1, amended: cross-reference matching applies the same non-stemming
normalization as dedup mode (`_normalize_service_intent`), so the
morphological variants "Denver Plumbers" / "plumber denver" normalize to
the distinct stems "plumbers" / "plumber" and the candidate is marked
absent (`on_old_site = false`). -/
theorem claimC1_amended :
    normalize_service_intent (str "Denver Plumbers") [str "Denver"] =
        str "plumbers" ∧
      normalize_service_intent (str "plumber denver") [str "Denver"] =
        str "plumber" ∧
      check_ranking_for_keywords
        [{ keyword := str "plumber denver", monthly_searches := 500 }]
        [{ keyword := str "Denver Plumbers", search_volume := 500,
           rank_position := 1, serp_type := str "organic" }]
        [str "Denver"] =
        [{ keyword := str "plumber denver", monthly_searches := 500,
           on_old_site := false }] := by
  refine ⟨by decide, by decide, by decide⟩

/-- C2, counterexample: a profile with nonempty `relevance_terms`
(["roofing"]) for which the pipeline's relevance predicate disagrees with
substring matching against those terms: "best repair xy" passes the
filter (it contains the stock signal "repair") although it contains no
relevance term. -/
theorem claimC2_counterexample :
    relevanceProfile.relevance_terms ≠ [] ∧
      profileRelevant relevanceProfile (str "best repair xy") = true ∧
      containsAnyTerm relevanceProfile.relevance_terms
        (str "best repair xy") = false := by
  refine ⟨by decide, by decide, by decide⟩

/-- C2, amended: the pipeline's relevance predicate never consults
`profile.relevance_terms`; for every profile it tests the keyword against
the derived service-signal vocabulary (fixed service-intent words plus
industry-seed words plus service-name words) as a substring of the
lowercased keyword. -/
theorem claimC2_amended (p : BusinessProfile) (t : List Str) (kw : Str) :
    profileRelevant { p with relevance_terms := t } kw =
        profileRelevant p kw ∧
      (profileRelevant p kw = true ↔
        ∃ term ∈ service_signals p.industry p.services,
          isSubstr term (pyLower kw) = true) := by
  refine ⟨rfl, ?_⟩
  simp [profileRelevant, is_service_relevant, List.any_eq_true]

/-- C3, counterexample: with eleven relevant Denver-only candidates of
distinct intents, the filtered, deduplicated pool has 11 (≥ 10) elements,
yet the final result contains 10 entries attributed to the city "denver"
— the per-city cap of 3 is exceeded even though at least 10 deduplicated
candidates existed, because backfill triggers whenever the capped pass
selected fewer than 10, not only when the pool was smaller than 10. -/
theorem claimC3_counterexample :
    (sortedUnique denverItems (str "widget") [] [str "Denver"]).length = 11 ∧
      cityCount [str "Denver"] (str "denver")
        (parse_and_rank denverItems (str "widget") [] [str "Denver"]) = 10 := by
  refine ⟨by decide, by decide⟩

/-- C3, amended: whenever the capped diversity pass alone reaches 10
entries (so no backfill occurs), no nonempty city is assigned more than 3
of the final entries; the cap can only be exceeded when the capped pass
selected fewer than 10, which is possible even with a pool of 10 or more
candidates. -/
theorem claimC3_amended (items : List (Str × Int)) (industry : Str)
    (services all_cities : List Str) (c : Str) (hc : c ≠ [])
    (h10 : 10 ≤ (cappedStage items industry services all_cities).length) :
    cityCount all_cities c
      (parse_and_rank items industry services all_cities) ≤ 3 := by
  unfold cityCount parse_and_rank
  rw [List.countP_map]
  have hfinal : finalPairs items industry services all_cities =
      cappedStage items industry services all_cities := by
    unfold finalPairs
    rw [if_neg (by omega)]
  rw [hfinal]
  unfold cappedStage
  refine cappedGo_citycap all_cities _ [] (fun _ => 0) ?_ c hc
  intro c0 hc0
  exact ⟨by simp, by simp⟩

/-- C3, witness: on the four-city pool the capped pass reaches 10 and the
theorem applies — city "aaa" gets at most 3 entries. -/
theorem claimC3_witness :
    (str "aaa" ≠ ([] : Str)) ∧
      10 ≤ (cappedStage fourCityItems (str "widget") [] fourCities).length ∧
      cityCount fourCities (str "aaa")
        (parse_and_rank fourCityItems (str "widget") [] fourCities) ≤ 3 :=
  ⟨by decide, by decide,
    claimC3_amended fourCityItems (str "widget") [] fourCities (str "aaa")
      (by decide) (by decide)⟩

/-- C4, counterexample: dedup-mode normalization is not idempotent —
sorting can move a two-letter word to the end of the string, where the
second pass's trailing-state regex deletes it:
`normalize("zz painter denver") = "painter zz"` but normalizing that
again gives `"painter"`. -/
theorem claimC4_counterexample :
    normalize_service_intent
        (normalize_service_intent (str "zz painter denver") [str "Denver"])
        [str "Denver"] ≠
      normalize_service_intent (str "zz painter denver") [str "Denver"] := by
  decide

/-- C4, amended: dedup-mode normalization is idempotent on every input
whose normalized form is itself left unchanged by the city-removal step,
the trailing-two-letter-word regex, and the `co` / `in` stop-token
regexes — the second pass then only lowercases, re-splits, re-sorts and
re-joins, all of which fix an already-normalized string. -/
theorem claimC4_amended (k : Str) (cs : List Str)
    (h1 : cs.foldl (fun acc city => pyReplace acc (pyLower city) [])
      (normalize_service_intent k cs) = normalize_service_intent k cs)
    (h2 : subTrailingTwo (normalize_service_intent k cs) =
      normalize_service_intent k cs)
    (h3 : subWord (str "co") (normalize_service_intent k cs) =
      normalize_service_intent k cs)
    (h4 : subWord (str "in") (normalize_service_intent k cs) =
      normalize_service_intent k cs) :
    normalize_service_intent (normalize_service_intent k cs) cs =
      normalize_service_intent k cs := by
  have hdef : ∀ a : Str, normalize_service_intent a cs =
      joinSpace (sortLe leStr (pySplit (subWord (str "in") (subWord (str "co")
        (subTrailingTwo (cs.foldl
          (fun acc city => pyReplace acc (pyLower city) [])
          (pyLower a))))))) := fun a => rfl
  rw [hdef (normalize_service_intent k cs)]
  rw [pyLower_normalize, h1, h2, h3, h4]
  have hsplit : pySplit (normalize_service_intent k cs) =
      sortLe leStr (pySplit (subWord (str "in") (subWord (str "co")
        (subTrailingTwo (cs.foldl
          (fun acc city => pyReplace acc (pyLower city) [])
          (pyLower k)))))) := by
    rw [hdef k]
    exact pySplit_joinSpace
      (fun w hw => pySplit_token_ok (mem_sortLe.mp hw))
  rw [hsplit, sortLe_idem leStr_total, ← hdef k]

/-- C4, witness: "house painter denver" with cities ["Denver"] satisfies
the amended theorem's hypotheses, and normalization is idempotent
there. -/
theorem claimC4_witness :
    ([str "Denver"].foldl (fun acc city => pyReplace acc (pyLower city) [])
        (normalize_service_intent (str "house painter denver")
          [str "Denver"]) =
      normalize_service_intent (str "house painter denver") [str "Denver"]) ∧
    (subTrailingTwo (normalize_service_intent (str "house painter denver")
        [str "Denver"]) =
      normalize_service_intent (str "house painter denver") [str "Denver"]) ∧
    (subWord (str "co") (normalize_service_intent (str "house painter denver")
        [str "Denver"]) =
      normalize_service_intent (str "house painter denver") [str "Denver"]) ∧
    (subWord (str "in") (normalize_service_intent (str "house painter denver")
        [str "Denver"]) =
      normalize_service_intent (str "house painter denver") [str "Denver"]) ∧
    normalize_service_intent
        (normalize_service_intent (str "house painter denver") [str "Denver"])
        [str "Denver"] =
      normalize_service_intent (str "house painter denver") [str "Denver"] :=
  ⟨by decide, by decide, by decide, by decide,
    claimC4_amended (str "house painter denver") [str "Denver"]
      (by decide) (by decide) (by decide) (by decide)⟩

/-- C5, counterexample: a profile that supplies its own seed keywords
(["foo bar"]) does not get them back — the pipeline's seed generator
ignores `profile.seed_keywords` and constructs seeds from industry,
services and cities. -/
theorem claimC5_counterexample :
    seedProfile.seed_keywords ≠ [] ∧
      pipelineSeeds seedProfile ≠ seedProfile.seed_keywords.take 20 := by
  refine ⟨by decide, by decide⟩

/-- C5, amended: the seed list is independent of
`profile.seed_keywords` — `generate_seed_keywords` never reads them;
seeds are always constructed from industry, services and cities, and the
list is truncated to at most 20. -/
theorem claimC5_amended (p : BusinessProfile) (s : List Str) :
    pipelineSeeds { p with seed_keywords := s } = pipelineSeeds p ∧
      (pipelineSeeds p).length ≤ 20 := by
  refine ⟨rfl, ?_⟩
  unfold pipelineSeeds generate_seed_keywords
  exact List.length_take_le _ _

/-- C6, counterexample: the resolver used on the ranking-lookup path
(`get_ranked_keywords` line 462) returns the state-level identifier
"Colorado,United States" for "Denver, CO" — it is not restricted to
country level. -/
theorem claimC6_counterexample :
    rankingLookupLocation (str "Denver, CO") = str "Colorado,United States" ∧
      rankingLookupLocation (str "Denver, CO") ∈ stateLevelIdentifiers := by
  refine ⟨by decide, by decide⟩

/-- C6, amended: both fetch paths call the one and only resolver
`_detect_location`, so the ranking-lookup path resolves every location
exactly as the discovery path does, including state-level results for US
"City, ST" locations. -/
theorem claimC6_amended :
    (∀ loc : Str, rankingLookupLocation loc = discoveryLocation loc) ∧
      rankingLookupLocation (str "Denver, CO") =
        str "Colorado,United States" :=
  ⟨fun _ => rfl, by decide⟩

/-- C7, counterexample: a keyword containing the profile-blocklist entry
"acme" (which is in the combined blocklist but not in the fixed
`BRAND_BLOCKLIST`) survives the whole pipeline — the filter never
consults the profile's blocklist. -/
theorem claimC7_counterexample :
    (str "acme") ∈ combinedBlocklist blockProfile ∧
      isSubstr (str "acme") (pyLower (str "acme repair denver")) = true ∧
      (parse_and_rank [(str "acme repair denver", 100)]
          blockProfile.industry blockProfile.services
          [str "Denver"]).map KeywordData.keyword =
        [str "acme repair denver"] := by
  refine ⟨by decide, by decide, by decide⟩

/-- C7, amended: the final result never contains a keyword whose
lowercase form contains an entry of the fixed `BRAND_BLOCKLIST`
(`_is_blocked_brand` is false of every result keyword); the profile's own
blocklist is not consulted by the pipeline. -/
theorem claimC7_amended (items : List (Str × Int)) (industry : Str)
    (services all_cities : List Str) :
    ∀ kd ∈ parse_and_rank items industry services all_cities,
      is_blocked_brand kd.keyword = false := by
  intro kd hkd
  unfold parse_and_rank at hkd
  simp only [List.mem_map] at hkd
  obtain ⟨e, he, rfl⟩ := hkd
  have h1 := mem_sortedUnique (mem_finalPairs he)
  unfold filterStep at h1
  have h2 := (List.mem_filter.mp h1).2
  simp only [Bool.and_eq_true, Bool.not_eq_true'] at h2
  exact h2.1.1

/-- C7, witness: a concrete unblocked keyword that reaches the final
result, at which the amended theorem applies. -/
theorem claimC7_witness :
    ({ keyword := str "repair denver", monthly_searches := 5 } : KeywordData) ∈
        parse_and_rank [(str "repair denver", 5)] (str "widget") []
          [str "Denver"] ∧
      is_blocked_brand (str "repair denver") = false :=
  ⟨by decide,
    claimC7_amended [(str "repair denver", 5)] (str "widget") []
      [str "Denver"]
      { keyword := str "repair denver", monthly_searches := 5 } (by decide)⟩

/-- C8: for every input candidate list (and industry, services and city
list), the lowercase forms of the final result's keywords are pairwise
distinct — exact-string dedup plus per-intent dedup plus once-only
selection in both the capped and backfill passes never emit the same
lowercase keyword twice. -/
theorem claimC8_nodup (items : List (Str × Int)) (industry : Str)
    (services all_cities : List Str) :
    ((parse_and_rank items industry services all_cities).map
      (fun kd => pyLower kd.keyword)).Nodup := by
  have h1 : (parse_and_rank items industry services all_cities).map
      (fun kd => pyLower kd.keyword) =
      (finalPairs items industry services all_cities).map
        (fun kv => pyLower kv.1) := by
    unfold parse_and_rank
    rw [List.map_map]
    rfl
  have h2 : (finalPairs items industry services all_cities).map
      (fun kv => pyLower kv.1) =
      (finalPairs items industry services all_cities).map Prod.fst :=
    List.map_congr_left (fun x hx => finalPairs_lowered hx)
  rw [h1, h2]
  exact finalPairs_fst_nodup items industry services all_cities

/-- C9: cross-referencing against an empty ranked-keyword list (the
degraded result of a failed ranked-keyword fetch) returns one entry per
opportunity keyword with every `on_old_site` flag false. -/
theorem claimC9_empty_ranked (opportunity : List KeywordData)
    (all_cities : List Str) :
    check_ranking_for_keywords opportunity [] all_cities =
      opportunity.map (fun kw =>
        { keyword := kw.keyword, monthly_searches := kw.monthly_searches,
          on_old_site := false }) := rfl

/-- C10: the cross-referencer returns exactly one result per opportunity
keyword, in input order, preserving each keyword and its
`monthly_searches` unchanged — only the presence flag is computed. -/
theorem claimC10_frame (opportunity : List KeywordData)
    (ranked : List RankedKeywordData) (all_cities : List Str) :
    (check_ranking_for_keywords opportunity ranked all_cities).map
        (fun r => (r.keyword, r.monthly_searches)) =
      opportunity.map (fun kw => (kw.keyword, kw.monthly_searches)) := by
  simp only [check_ranking_for_keywords]
  rw [List.map_map]
  exact List.map_congr_left (fun a _ => rfl)
